import Mathlib

/-!
Verification of `include_parse` (src/include_parse/include_parse.cpp).

A shallow embedding of the recursive include preprocessor.  Strings are
modelled as `List Char` (the C++ `std::string` buffers contain no NUL
characters in any behaviour considered here; `std::filesystem::path
::generic_string` is the identity on the slash-separated identities the
program manufactures).  The `std::regex` calls are modelled with the
ECMAScript semantics mandated by the C++ standard (and exhibited by the
mainstream implementations): without `std::regex::multiline` the anchor
matches only at the very beginning of the target sequence, `\s` includes
newlines, `.` excludes line terminators, alternation is first-match,
quantifiers are greedy (`*?` non-greedy), and `std::regex_replace`
replaces the leftmost matches one after another, resuming right after
each replacement.
-/

/-- ECMAScript `\s` restricted to single bytes: space, `\t`, `\n`, `\v`, `\f`, `\r`. -/
def isWS (c : Char) : Bool :=
  c = ' ' || c = '\t' || c = '\n' || c = '\x0b' || c = '\x0c' || c = '\r'

/-- The character class `[a-zA-Z0-9]` of the guard sanitiser. -/
def isAlnum (c : Char) : Bool :=
  c.isAlpha || c.isDigit

/-- ECMAScript word character (for the `\b` boundary): `[A-Za-z0-9_]`. -/
def isWordChar (c : Char) : Bool :=
  isAlnum c || c = '_'

/-- Strip a literal character-sequence from the front of a buffer. -/
def dropPfx : List Char → List Char → Option (List Char)
  | [], l => some l
  | _ :: _, [] => none
  | p :: ps, c :: cs => if c = p then dropPfx ps cs else none

/-- The match of `^\s*#pragma\s+once\b` against the start of the buffer.
Returns the suffix following the match (the whole match is replaced by
the empty string), or `none` when the anchored pattern does not match.
Since the expression is anchored and the flavour is not multiline, there
is at most one match, at the very beginning of the buffer. -/
def matchPragmaOnce (l : List Char) : Option (List Char) :=
  match dropPfx "#pragma".data (l.dropWhile isWS) with
  | none => none
  | some l2 =>
    match l2 with
    | [] => none
    | c :: l2' =>
      if isWS c then
        match dropPfx "once".data (l2'.dropWhile isWS) with
        | none => none
        | some l4 =>
          match l4.head? with
          | some d => if isWordChar d then none else some l4
          | none => some l4
      else none

/-- Models `strip_pragma_once` (include_parse.cpp:37-43): replace the anchored
`#pragma once` directive by the empty string and report whether the
buffer shrank. -/
def strip_pragma_once (source : List Char) : List Char × Bool :=
  match matchPragmaOnce source with
  | some rest => (rest, rest.length != source.length)
  | none => (source, false)

mutual
/-- Models `strip_block_comments` (include_parse.cpp:45-49): remove `/*...*/`
comments; non-greedy, so the first `*/` terminates a comment; an
unterminated `/*` matches nothing and is left in place. -/
def strip_block_comments : List Char → List Char
  | [] => []
  | '/' :: '*' :: rest => blockCommentBody ['*', '/'] rest
  | c :: rest => c :: strip_block_comments rest

/-- Scanning state inside a `/*` comment; `buf` holds the consumed
characters in reverse, emitted verbatim if no `*/` ever closes. -/
def blockCommentBody (buf : List Char) : List Char → List Char
  | '*' :: '/' :: rest => strip_block_comments rest
  | c :: rest => blockCommentBody (c :: buf) rest
  | [] => buf.reverse
end

mutual
/-- Models `strip_line_comments` (include_parse.cpp:51-55): remove `//.*`; the
`.` of ECMAScript stops before a line terminator, which is kept. -/
def strip_line_comments : List Char → List Char
  | [] => []
  | '/' :: '/' :: rest => lineCommentBody rest
  | c :: rest => c :: strip_line_comments rest

/-- Scanning state inside a `//` comment: drop until a line terminator. -/
def lineCommentBody : List Char → List Char
  | [] => []
  | c :: rest =>
    if c = '\n' || c = '\r' then c :: strip_line_comments rest
    else lineCommentBody rest
end

/-- Models `strip_comments` (include_parse.cpp:57-60): block comments first,
then line comments. -/
def strip_comments (source : List Char) : List Char :=
  strip_line_comments (strip_block_comments source)

/-- Models `runtime_path_from_include_path` (include_parse.cpp:62-70).  `none`
models the `assert(path.size() >= 2)` firing.  The input is the directive
payload including its delimiters.  The trailing delimiter is dropped, the
first character is overwritten with `/`, and the result is read from
offset 0 for the `<...>` form and offset 1 for the `"..."` form. -/
def runtime_path_from_include_path (path : List Char) : Option (List Char) :=
  if 2 ≤ path.length then
    let stripped_path := path.dropLast
    let stripped_path := '/' :: stripped_path.tail
    let first_pos := if path.head? = some '<' then 0 else 1
    some (stripped_path.drop first_pos)
  else none

/-- Scan up to the first occurrence of the closing delimiter: returns
the interior (all characters before it, none of which is the delimiter)
and the suffix after the delimiter. -/
def scanDelimited (close : Char) : List Char → Option (List Char × List Char)
  | [] => none
  | c :: rest =>
    if c = close then some ([], rest)
    else
      match scanDelimited close rest with
      | some (w, suf) => some (c :: w, suf)
      | none => none

/-- One attempt of the payload alternation `("[^"]+"|<[^>]*>)` at the
head of the buffer: returns the payload including delimiters together
with the suffix after it.  The quoted branch needs a nonempty interior,
the angle branch accepts an empty one. -/
def parsePayload : List Char → Option (List Char × List Char)
  | '"' :: rest =>
    match scanDelimited '"' rest with
    | some ([], _) => none
    | some (w, suf) => some ('"' :: (w ++ ['"']), suf)
    | none => none
  | '<' :: rest =>
    match scanDelimited '>' rest with
    | some (w, suf) => some ('<' :: (w ++ ['>']), suf)
    | none => none
  | _ => none

/-- A match of `#include\s*("[^"]+"|<[^>]*>)` anchored at the head of
the buffer: the literal, then greedily skipped whitespace, then the
payload. -/
def matchDirectiveAt (l : List Char) : Option (List Char × List Char) :=
  match dropPfx "#include".data l with
  | none => none
  | some r => parsePayload (r.dropWhile isWS)

/-- The leftmost match of the include-directive expression in the
buffer: `some (pre, payload, suf)` with `pre` the text before the match
and `suf` the text after it, or `none` when no directive occurs. -/
def findDirective : List Char → Option (List Char × List Char × List Char)
  | [] => none
  | c :: rest =>
    match matchDirectiveAt (c :: rest) with
    | some (payload, suf) => some ([], payload, suf)
    | none =>
      match findDirective rest with
      | some (pre, payload, suf) => some (c :: pre, payload, suf)
      | none => none

/-- The 64-bit FNV-1a hash, the deterministic, unseeded string hash that the
mainstream `std::hash<std::string>` implementations compute (it is the
MSVC implementation verbatim; libstdc++ uses a different but equally
fixed-seed function).  The C++ standard lets `std::hash` differ between
executions, but the program's toolchains all use a fixed function; the
embedding fixes FNV-1a as that function. -/
def stdHashString (l : List Char) : Nat :=
  l.foldl (fun h c => ((h ^^^ c.toNat) * 1099511628211) % 18446744073709551616)
    14695981039346656037

/-- Decimal digits of a natural number, as produced by `std::to_string`. -/
def natToDecimalGo : Nat → Nat → List Char → List Char
  | 0, _, acc => acc
  | f + 1, n, acc =>
    let d := Char.ofNat (48 + n % 10)
    if n < 10 then d :: acc else natToDecimalGo f (n / 10) (d :: acc)

/-- Models `std::to_string` on an unsigned value. -/
def natToDecimal (n : Nat) : List Char :=
  natToDecimalGo (n + 1) n []

mutual
/-- Models `std::regex_replace(path, [^a-zA-Z0-9]+, "_")`: every maximal run of
non-alphanumeric characters becomes a single underscore. -/
def collapse_non_identifier : List Char → List Char
  | [] => []
  | c :: rest =>
    if isAlnum c then c :: collapse_non_identifier rest
    else '_' :: collapseRun rest

/-- Inside a run of non-alphanumeric characters (already replaced). -/
def collapseRun : List Char → List Char
  | [] => []
  | c :: rest =>
    if isAlnum c then c :: collapse_non_identifier rest
    else collapseRun rest
end

/-- Models `std::regex_replace(path_safe, ^_+|_+$, "")`: drop the leading and
the trailing run of underscores (for an all-underscore buffer the single
run is removed once, leaving the empty buffer, as the composition does). -/
def trim_underscores (l : List Char) : List Char :=
  ((l.dropWhile (fun c => c = '_')).reverse.dropWhile (fun c => c = '_')).reverse

/-- The guard name synthesised in do_preprocess (include_parse.cpp:136-147):
sanitised identity (collapse runs, truncate to 128, trim underscores)
followed by the hash of the full untruncated identity. -/
def include_guard_name (path : List Char) : List Char :=
  let path_safe := collapse_non_identifier path
  let path_safe := path_safe.take 128
  let path_safe := trim_underscores path_safe
  "NAMA_INCLUDE_GUARD_".data ++ path_safe ++ '_' :: natToDecimal (stdHashString path)

/-- The `#ifndef/#define/#endif` wrapping of once-marked content
(include_parse.cpp:148-161), with a newline forced before the closer
when the buffer does not already end in one. -/
def include_guard_wrap (path buf : List Char) : List Char :=
  let g := include_guard_name path
  let s := "#ifndef ".data ++ g ++ '\n' :: "#define ".data ++ g ++ '\n' :: buf
  let s := if s.getLast? = some '\n' then s else s ++ ['\n']
  s ++ "#endif // ".data ++ g ++ ['\n']

/-- Models `std::filesystem::path::parent_path().generic_string()` for the
generic-format paths this program builds: everything before the last
separator (the root `/` is kept when it is all that remains; a
separator-free path has the empty parent). -/
def parent_path (file : List Char) : List Char :=
  match file.reverse.dropWhile (fun c => c ≠ '/') with
  | '/' :: [] => ['/']
  | '/' :: rest => rest.reverse
  | _ => []

/-- Models `Working_Directory_File_Guard` (include_parse.cpp:22-35): holds a
stack of directory names that is a fresh member of each instance. -/
structure Working_Directory_File_Guard where
  working_directories : List (List Char)
deriving DecidableEq, Repr

/-- The constructor: a fresh (empty) member stack onto which the file's
parent directory is pushed. -/
def wdfg_construct (file : List Char) : Working_Directory_File_Guard :=
  { working_directories := [parent_path file] }

/-- The destructor: pops the stack. -/
def wdfg_destruct (g : Working_Directory_File_Guard) : Working_Directory_File_Guard :=
  { working_directories := g.working_directories.tail }

/-- Models `Session` (include_parse.cpp:10-14): the two identity sets.  The
`unordered_set`s are modelled as duplicate-free lists: `emplace` is a
guarded cons (the program only inserts after a negative membership
test), `erase` is `List.erase`, `count > 0` is membership. -/
structure Session where
  visiting : List (List Char)
  should_skip : List (List Char)
deriving DecidableEq, Repr

/-- Models `Preprocess_Result` (include_parse.cpp:16-20). -/
structure Preprocess_Result where
  content : List Char
  has_pragma_once : Bool
deriving DecidableEq, Repr

/-- The fatal conditions of the run: cyclic inclusion, unreadable file
(`slurp` throwing), the path-resolver assertion, and exhaustion of the
step bound of the embedding (never reached at adequate fuel). -/
inductive PErr where
  | cyclic (path : List Char)
  | missing (path : List Char)
  | malformed
  | fuelOut
deriving DecidableEq, Repr

/-- The observable record of one completed directive splice: the child's
resolved identity, whether this was its first expansion request of the
run (`should_skip` membership tested negative), the child's returned
once-flag and content, the spliced replacement text, and a snapshot of
`visiting` when the directive was encountered. -/
structure Event where
  path : List Char
  first : Bool
  once : Bool
  child : List Char
  repl : List Char
  vis : List (List Char)
deriving DecidableEq, Repr

/-- The file-read collaborator `slurp`: `none` models the throw. -/
abbrev FS := List Char → Option (List Char)

/-- Result of one resolver invocation: the session as left behind (the
C++ session is a reference that survives a throw), the chronological
trace of completed directive splices, and the result or the error. -/
abbrev POut := Session × List Event × Except PErr Preprocess_Result

/-- The directive loop of `do_preprocess` (include_parse.cpp:107-129),
parameterised by the recursive child expansion.  For each leftmost
directive: resolve the payload, slurp the child (throwing when absent),
then test-and-set `should_skip`, recurse, choose the replacement (empty
for an already-expanded once-file), splice it, and resume scanning
strictly after the replacement.  `n` bounds the number of loop
iterations; `buf.length + 1` always suffices. -/
def scanIncludes (fs : FS)
    (child : Session → List Char → List Char → POut) :
    Nat → Session → List Char → Session × List Event × Except PErr (List Char)
  | 0, sess, _ => (sess, [], .error .fuelOut)
  | n + 1, sess, buf =>
    match findDirective buf with
    | none => (sess, [], .ok buf)
    | some (pre, include_path, suf) =>
      match runtime_path_from_include_path include_path with
      | none => (sess, [], .error .malformed)
      | some runtime_path =>
        match fs runtime_path with
        | none => (sess, [], .error (.missing runtime_path))
        | some included_source =>
          let should_skip := decide (runtime_path ∈ sess.should_skip)
          let sess1 := if should_skip then sess
            else { sess with should_skip := runtime_path :: sess.should_skip }
          match child sess1 runtime_path included_source with
          | (sess2, tc, .error e) => (sess2, tc, .error e)
          | (sess2, tc, .ok included_result) =>
            let replacement :=
              if included_result.has_pragma_once && should_skip then []
              else included_result.content
            let ev : Event :=
              { path := runtime_path, first := !should_skip,
                once := included_result.has_pragma_once,
                child := included_result.content, repl := replacement,
                vis := sess.visiting }
            match scanIncludes fs child n sess2 suf with
            | (sess3, tr, .error e) => (sess3, ev :: tc ++ tr, .error e)
            | (sess3, tr, .ok rest) =>
              (sess3, ev :: tc ++ tr, .ok (pre ++ replacement ++ rest))

/-- Models `do_preprocess` (include_parse.cpp:85-169): construct the (inert)
working-directory guard, strip the once-marker from the raw source, on a
`visiting` hit either break the cycle (marker present) or fail (cyclic
error), otherwise mark the file as visiting, strip comments, run the
directive loop, unmark, and wrap once-marked output in the synthesised
guard.  The first argument of `Nat` bounds the recursion depth, which
the cycle detector keeps at most one more than the number of distinct
files. -/
def do_preprocess (fs : FS) : Nat → Session → List Char → List Char → POut
  | 0, sess, _, _ => (sess, [], .error .fuelOut)
  | fuel + 1, sess, filename, source =>
    let _wdfg := wdfg_construct filename
    let sp := strip_pragma_once source
    let source1 := sp.1
    let has_pragma_once := sp.2
    if filename ∈ sess.visiting then
      if has_pragma_once then (sess, [], .ok ⟨[], has_pragma_once⟩)
      else (sess, [], .error (.cyclic filename))
    else
      let sess1 := { sess with visiting := filename :: sess.visiting }
      let source2 := strip_comments source1
      match scanIncludes fs (do_preprocess fs fuel) (source2.length + 1) sess1 source2 with
      | (sess2, t, .error e) => (sess2, t, .error e)
      | (sess2, t, .ok buf) =>
        let sess3 := { sess2 with visiting := sess2.visiting.erase filename }
        let out := if has_pragma_once then include_guard_wrap filename buf else buf
        (sess3, t, .ok ⟨out, has_pragma_once⟩)

/-- Variant of `do_preprocess` with the single difference that no
`Working_Directory_File_Guard` is constructed: the comparison point for
the frame property of the guard. -/
def do_preprocess_unguarded (fs : FS) : Nat → Session → List Char → List Char → POut
  | 0, sess, _, _ => (sess, [], .error .fuelOut)
  | fuel + 1, sess, filename, source =>
    let sp := strip_pragma_once source
    let source1 := sp.1
    let has_pragma_once := sp.2
    if filename ∈ sess.visiting then
      if has_pragma_once then (sess, [], .ok ⟨[], has_pragma_once⟩)
      else (sess, [], .error (.cyclic filename))
    else
      let sess1 := { sess with visiting := filename :: sess.visiting }
      let source2 := strip_comments source1
      match scanIncludes fs (do_preprocess_unguarded fs fuel) (source2.length + 1) sess1 source2 with
      | (sess2, t, .error e) => (sess2, t, .error e)
      | (sess2, t, .ok buf) =>
        let sess3 := { sess2 with visiting := sess2.visiting.erase filename }
        let out := if has_pragma_once then include_guard_wrap filename buf else buf
        (sess3, t, .ok ⟨out, has_pragma_once⟩)

/-- The child identities of a trace, in chronological order. -/
def pathsOf (t : List Event) : List (List Char) :=
  t.map Event.path

/-- The `first` flag of every event in the trace is correct relative to
an accumulating set of already-requested identities: an event is a first
expansion request exactly when its identity is neither in the initial
set nor the identity of an earlier event. -/
def FirstFlagsOk : List (List Char) → List Event → Prop
  | _, [] => True
  | seen, ev :: t => (ev.first = true ↔ ev.path ∉ seen) ∧ FirstFlagsOk (ev.path :: seen) t

/-- The per-event replacement discipline of the directive loop: for a
once-marked child the replacement is the child content on a first
request and empty otherwise, and the child content of a once-marked
child is either empty (a `visiting` hit) or guard-wrapped; for an
unmarked child the replacement is always the child content. -/
def EvShape (ev : Event) : Prop :=
  (ev.once = true →
    ev.repl = (if ev.first = true then ev.child else [])
    ∧ (ev.child = [] ∨ ∃ b, ev.child = include_guard_wrap ev.path b))
  ∧ (ev.once = false → ev.repl = ev.child)

/-- The session-preservation contract of one resolver call relative to
its input session: `visiting` is restored exactly on success, never
shrinks on an error exit, and every trace event's `visiting` snapshot
contains the input `visiting` set. -/
def SessPreserved {α : Type} (s : Session)
    (out : Session × List Event × Except PErr α) : Prop :=
  (∀ r, out.2.2 = Except.ok r → out.1.visiting = s.visiting)
  ∧ (∀ e, out.2.2 = Except.error e → s.visiting ⊆ out.1.visiting)
  ∧ (∀ ev ∈ out.2.1, s.visiting ⊆ ev.vis)

/-- Spec-side detector (for refutation): a once-marker line, i.e.
optional leading blanks and then `#pragma` whitespace `once`. -/
def spec_onceMarkerHere (l : List Char) : Bool :=
  match dropPfx "#pragma".data (l.dropWhile (fun c => c = ' ' || c = '\t')) with
  | none => false
  | some l2 =>
    match l2 with
    | c :: l2' => isWS c && (dropPfx "once".data (l2'.dropWhile isWS)).isSome
    | [] => false

/-- Spec-side detector, scanning all positions after a newline. -/
def spec_hasLineAnchoredOnceMarkerGo : List Char → Bool
  | [] => false
  | '\n' :: rest => spec_onceMarkerHere rest || spec_hasLineAnchoredOnceMarkerGo rest
  | _ :: rest => spec_hasLineAnchoredOnceMarkerGo rest

/-- Spec-side detector for the claim wording of the Once-Marker
Normalizer: some line of the buffer carries the marker, anchored at the
line start up to optional leading whitespace. -/
def spec_hasLineAnchoredOnceMarker (l : List Char) : Bool :=
  spec_onceMarkerHere l || spec_hasLineAnchoredOnceMarkerGo l

/-- A run whose root is a once-marked file that includes itself twice:
the once-marked identity `b` is requested twice, yet no occurrence can
expand to the guarded content, because the first request happens while
`b` itself is still being expanded. -/
def c1fs : FS := fun p =>
  if p = "b".data then some "#pragma once\n#include \"b\"\n#include \"b\"\n".data else none

/-- The run on `c1fs`, rooted at `b` itself. -/
def c1run : POut :=
  do_preprocess c1fs 3 ⟨[], []⟩ "b".data "#pragma once\n#include \"b\"\n#include \"b\"\n".data

/-- A run whose single directive names an unreadable file: the missing
file aborts the run after `a` was put into `visiting` and before the
manual `erase` of `a` is reached. -/
def c3run : POut :=
  do_preprocess (fun _ => none) 3 ⟨[], []⟩ "a".data "#include \"b\"".data

/-- A run on a file whose once-marker is commented out. -/
def c8run : POut :=
  do_preprocess (fun _ => none) 2 ⟨[], []⟩ "a".data "// #pragma once\nW".data

deriving instance DecidableEq for Except

/-! ## Basic lemmas about the text transforms -/

theorem dropPfx_self_append : ∀ (xs r : List Char), dropPfx xs (xs ++ r) = some r
  | [], _ => rfl
  | x :: xs, r => by simp [dropPfx, dropPfx_self_append xs r]

theorem dropPfx_ne_first (p c : Char) (ps cs : List Char) (h : c ≠ p) :
    dropPfx (p :: ps) (c :: cs) = none := by
  simp [dropPfx, h]

theorem dropWhile_append_of_all (p : Char → Bool) :
    ∀ (ws r : List Char), (∀ c ∈ ws, p c = true) →
      List.dropWhile p (ws ++ r) = List.dropWhile p r
  | [], r, _ => rfl
  | w :: ws, r, h => by
    have hw : p w = true := h w (by simp)
    simp only [List.cons_append, List.dropWhile_cons, hw, if_true]
    exact dropWhile_append_of_all p ws r (fun c hc => h c (by simp [hc]))

/-- The anchored once-marker expression cannot match a buffer whose
first character is neither whitespace nor `#`. -/
theorem dropWhile_isWS_cons_neg (c : Char) (l : List Char) (h : isWS c = false) :
    List.dropWhile isWS (c :: l) = c :: l := by
  rw [List.dropWhile_cons, if_neg]
  simp [h]

theorem strip_pragma_once_no_match (l : List Char) (c : Char)
    (hc : l.head? = some c) (hws : isWS c = false) (hhash : c ≠ '#') :
    strip_pragma_once l = (l, false) := by
  cases l with
  | nil => simp at hc
  | cons d rest =>
    obtain rfl : d = c := by simpa using hc
    have h1 : (d :: rest).dropWhile isWS = d :: rest := dropWhile_isWS_cons_neg d rest hws
    have h2 : dropPfx "#pragma".data (d :: rest) = none := by
      have he : "#pragma".data = '#' :: "pragma".data := rfl
      rw [he]
      exact dropPfx_ne_first _ _ _ _ hhash
    unfold strip_pragma_once matchPragmaOnce
    rw [h1, h2]

/-! ## Unfolding lemmas for the resolver -/

theorem do_preprocess_hit (fs : FS) (fuel : Nat) (s : Session) (f src : List Char)
    (h : f ∈ s.visiting) :
    do_preprocess fs (fuel + 1) s f src
      = (s, [],
          if (strip_pragma_once src).2 = true then Except.ok ⟨[], true⟩
          else Except.error (PErr.cyclic f)) := by
  rcases hsp : strip_pragma_once src with ⟨a, b⟩
  cases b <;> simp [do_preprocess, hsp, h]

theorem do_preprocess_nohit (fs : FS) (fuel : Nat) (s : Session) (f src : List Char)
    (h : f ∉ s.visiting) :
    do_preprocess fs (fuel + 1) s f src
      = (match scanIncludes fs (do_preprocess fs fuel)
            ((strip_comments (strip_pragma_once src).1).length + 1)
            ⟨f :: s.visiting, s.should_skip⟩ (strip_comments (strip_pragma_once src).1) with
        | (sess2, t, .error e) => (sess2, t, .error e)
        | (sess2, t, .ok buf) =>
          (⟨sess2.visiting.erase f, sess2.should_skip⟩, t,
            .ok ⟨if (strip_pragma_once src).2 = true then include_guard_wrap f buf else buf,
                 (strip_pragma_once src).2⟩)) := by
  rcases hsp : strip_pragma_once src with ⟨a, b⟩
  simp only [do_preprocess, hsp, h, if_false, ite_false, wdfg_construct]

/-! ## C2 — behaviour on a `visiting` hit -/

/-- C2: when `do_preprocess` is invoked for an identity already in
`session.visiting`, it returns immediately: empty content with
`declares_once = true` when the (already stripped) source declares
once-semantics, and the cyclic-inclusion error naming that file
otherwise.  The body is never scanned and the session is untouched. -/
theorem c2_visiting_hit (fs : FS) (fuel : Nat) (s : Session) (f src : List Char)
    (h : f ∈ s.visiting) :
    do_preprocess fs (fuel + 1) s f src
      = (s, [],
          if (strip_pragma_once src).2 = true then Except.ok ⟨[], true⟩
          else Except.error (PErr.cyclic f)) := by
  rcases hsp : strip_pragma_once src with ⟨a, b⟩
  cases b <;> simp [do_preprocess, hsp, h]

/-- Witness for C2 at a concrete session and source. -/
theorem c2_witness :
    "b".data ∈ (Session.mk ["b".data] []).visiting
    ∧ do_preprocess (fun _ => none) 1 ⟨["b".data], []⟩ "b".data "#pragma once".data
        = (⟨["b".data], []⟩, [],
            if (strip_pragma_once "#pragma once".data).2 = true then Except.ok ⟨[], true⟩
            else Except.error (PErr.cyclic "b".data)) :=
  ⟨by decide, c2_visiting_hit (fun _ => none) 0 ⟨["b".data], []⟩ "b".data "#pragma once".data (by decide)⟩

/-! ## C4 — the two spellings do not resolve to the same identity -/

/-- C4 counterexample: the quoted and the angle spelling of the same
logical path `abc` resolve to different identities (`abc` vs `/abc`). -/
theorem c4_counterexample :
    runtime_path_from_include_path "\"abc\"".data ≠ runtime_path_from_include_path "<abc>".data
    ∧ runtime_path_from_include_path "\"abc\"".data = some "abc".data
    ∧ runtime_path_from_include_path "<abc>".data = some "/abc".data := by decide

/-- C4 amended: the resolver drops the delimiters of both forms, but the
forced leading `/` survives only for the angle form (read from offset 0);
the quoted form is read from offset 1 and keeps no leading `/`.  The two
spellings of the same interior therefore resolve to identities differing
by a leading slash, and are never the same. -/
theorem c4_amended (w : List Char) :
    runtime_path_from_include_path ('"' :: (w ++ ['"'])) = some w
    ∧ runtime_path_from_include_path ('<' :: (w ++ ['>'])) = some ('/' :: w)
    ∧ '/' :: w ≠ w := by
  refine ⟨?_, ?_, ?_⟩
  · have hlen : 2 ≤ ('"' :: (w ++ ['"'])).length := by simp
    have hdl : ('"' :: (w ++ ['"'])).dropLast = '"' :: w := by
      have : '"' :: (w ++ ['"']) = ('"' :: w) ++ ['"'] := by simp
      rw [this, List.dropLast_concat]
    simp [runtime_path_from_include_path, hlen, hdl]
  · have hlen : 2 ≤ ('<' :: (w ++ ['>'])).length := by simp
    have hdl : ('<' :: (w ++ ['>'])).dropLast = '<' :: w := by
      have : '<' :: (w ++ ['>']) = ('<' :: w) ++ ['>'] := by simp
      rw [this, List.dropLast_concat]
    simp [runtime_path_from_include_path, hlen, hdl]
  · intro h
    have := congrArg List.length h
    simp at this

/-- Witness for C4's amended theorem at the interior `abc`. -/
theorem c4_witness :
    runtime_path_from_include_path ('"' :: ("abc".data ++ ['"'])) = some "abc".data
    ∧ runtime_path_from_include_path ('<' :: ("abc".data ++ ['>'])) = some ('/' :: "abc".data)
    ∧ '/' :: "abc".data ≠ "abc".data :=
  c4_amended "abc".data

/-! ## C5 — the once-marker is only recognised at the buffer start -/

/-- C5 counterexample: the buffer `X\n#pragma once\nY` has a once-marker
anchored at a line start, yet nothing is removed and `false` is
reported, because the anchored expression matches only at the start of
the whole buffer. -/
theorem c5_counterexample :
    spec_hasLineAnchoredOnceMarker "X\n#pragma once\nY".data = true
    ∧ strip_pragma_once "X\n#pragma once\nY".data = ("X\n#pragma once\nY".data, false) := by
  decide

/-- C5 amended: the normalizer removes at most the single marker that
opens the buffer — optional whitespace (possibly spanning line breaks),
`#pragma`, whitespace, `once`, a word boundary — and reports `true`
exactly when that anchored marker was present; everything after the
match, markers included, is returned verbatim. -/
theorem c5_amended (ws ws1 rest : List Char)
    (hws : ∀ c ∈ ws, isWS c = true)
    (hws1 : ws1 ≠ []) (hws1' : ∀ c ∈ ws1, isWS c = true)
    (hrest : ∀ c, rest.head? = some c → isWordChar c = false) :
    strip_pragma_once (ws ++ ("#pragma".data ++ (ws1 ++ ("once".data ++ rest))))
      = (rest, true) := by
  cases ws1 with
  | nil => exact absurd rfl hws1
  | cons w ws1' =>
    have hw : isWS w = true := hws1' w (by simp)
    have h1 : (ws ++ ("#pragma".data ++ ((w :: ws1') ++ ("once".data ++ rest)))).dropWhile isWS
        = "#pragma".data ++ ((w :: ws1') ++ ("once".data ++ rest)) := by
      rw [dropWhile_append_of_all isWS ws _ hws]
      exact dropWhile_isWS_cons_neg '#' _ (by decide)
    have h3 : (ws1' ++ ("once".data ++ rest)).dropWhile isWS = "once".data ++ rest := by
      rw [dropWhile_append_of_all isWS ws1' _ (fun c hc => hws1' c (by simp [hc]))]
      exact dropWhile_isWS_cons_neg 'o' _ (by decide)
    have hm : matchPragmaOnce (ws ++ ("#pragma".data ++ ((w :: ws1') ++ ("once".data ++ rest))))
        = some rest := by
      unfold matchPragmaOnce
      rw [h1, dropPfx_self_append, List.cons_append]
      dsimp only
      rw [if_pos hw, h3, dropPfx_self_append]
      dsimp only
      cases hr : rest.head? with
      | none => rfl
      | some d =>
        have hd := hrest d hr
        simp [hd]
    unfold strip_pragma_once
    rw [hm]
    simp only [Prod.mk.injEq, bne_iff_ne, ne_eq, List.length_append, true_and]
    simp [List.length_append]
    omega

/-- Witness for C5's amended theorem at a concrete buffer. -/
theorem c5_witness :
    (∀ c ∈ " \n".data, isWS c = true) ∧ (" ".data ≠ ([] : List Char))
    ∧ (∀ c ∈ " ".data, isWS c = true)
    ∧ (∀ c, "\nX".data.head? = some c → isWordChar c = false)
    ∧ strip_pragma_once (" \n".data ++ ("#pragma".data ++ (" ".data ++ ("once".data ++ "\nX".data))))
        = ("\nX".data, true) :=
  ⟨by decide, by decide, by decide, by decide,
    c5_amended " \n".data " ".data "\nX".data (by decide) (by decide) (by decide) (by decide)⟩

/-! ## C6 — the guard name is a pure function of the identity -/

/-- C6: the guard name is computed from the identity alone by the fixed
pipeline — collapse every run of non-alphanumerics to one underscore,
truncate to 128 characters, trim underscores at both ends, and append
the hash of the full untruncated identity — the sanitised part never
exceeds 128 characters, and the hash is the fixed-constant FNV-1a fold
with no per-run seed, so equal identities yield byte-identical guard
names in every run. -/
theorem c6_guard_name_deterministic (path : List Char) :
    include_guard_name path
      = "NAMA_INCLUDE_GUARD_".data
        ++ trim_underscores ((collapse_non_identifier path).take 128)
        ++ '_' :: natToDecimal (stdHashString path)
    ∧ (trim_underscores ((collapse_non_identifier path).take 128)).length ≤ 128
    ∧ stdHashString path
        = path.foldl (fun h c => ((h ^^^ c.toNat) * 1099511628211) % 18446744073709551616)
            14695981039346656037 := by
  refine ⟨rfl, ?_, rfl⟩
  have h1 : (trim_underscores ((collapse_non_identifier path).take 128)).length
      ≤ ((collapse_non_identifier path).take 128).length := by
    unfold trim_underscores
    calc _ = ((((collapse_non_identifier path).take 128).dropWhile
              (fun c => c = '_')).reverse.dropWhile (fun c => c = '_')).length :=
            List.length_reverse _
      _ ≤ (((collapse_non_identifier path).take 128).dropWhile
              (fun c => c = '_')).reverse.length :=
            (List.dropWhile_suffix _).length_le
      _ = (((collapse_non_identifier path).take 128).dropWhile
              (fun c => c = '_')).length := List.length_reverse _
      _ ≤ ((collapse_non_identifier path).take 128).length :=
            (List.dropWhile_suffix _).length_le
  have h2 : ((collapse_non_identifier path).take 128).length ≤ 128 := by
    rw [List.length_take]
    exact Nat.min_le_left _ _
  exact le_trans h1 h2

/-! ## C8 — marker detection happens on raw content, but a commented-out
marker is not detected -/

/-- C8 counterexample: the only once-marker of the file sits behind a
`//` comment; the run reports `has_pragma_once = false` and the marker
text is simply removed with the comment — it is not treated as present. -/
theorem c8_counterexample :
    c8run.2.2 = Except.ok ⟨"\nW".data, false⟩
    ∧ (strip_pragma_once "// #pragma once\nW".data).2 = false := by decide

/-- C8 amended: the once-flag of a successful expansion is computed by
`strip_pragma_once` on the raw source, before comment stripping — but
this early ordering does not make a commented-out marker detectable: any
buffer opening with `/` (in particular `// #pragma once ...` or
`/* #pragma once ... */`) fails the anchored match, so the marker is
reported absent. -/
theorem c8_amended (fs : FS) (fuel : Nat) (s : Session) (f source : List Char) :
    (∀ s' t r, do_preprocess fs fuel s f source = (s', t, Except.ok r) →
       r.has_pragma_once = (strip_pragma_once source).2)
    ∧ (source.head? = some '/' → strip_pragma_once source = (source, false)) := by
  constructor
  · intro s' t r h
    cases fuel with
    | zero => simp [do_preprocess] at h
    | succ n =>
      by_cases hv : f ∈ s.visiting
      · rw [do_preprocess_hit fs n s f source hv] at h
        by_cases hb : (strip_pragma_once source).2 = true
        · rw [if_pos hb] at h
          have hr : r = ⟨[], true⟩ := by
            have := h.symm
            simp at this
            exact this.2.2
          rw [hr, hb]
        · rw [if_neg hb] at h
          simp at h
      · rw [do_preprocess_nohit fs n s f source hv] at h
        rcases hscan : scanIncludes fs (do_preprocess fs n)
            ((strip_comments (strip_pragma_once source).1).length + 1)
            ⟨f :: s.visiting, s.should_skip⟩
            (strip_comments (strip_pragma_once source).1) with ⟨s2, t2, r2⟩
        rw [hscan] at h
        cases r2 with
        | error e => simp at h
        | ok buf =>
          simp at h
          rw [← h.2.2]
  · intro hhead
    exact strip_pragma_once_no_match source '/' hhead (by decide) (by decide)

/-- Witness for C8's amended theorem: a successful run on a concrete
commented-marker file reports the raw-content detection result. -/
theorem c8_witness :
    ("// #pragma once\nW".data.head? = some '/')
    ∧ (do_preprocess (fun _ => none) 2 ⟨[], []⟩ "a".data "// #pragma once\nW".data).2.2
        = Except.ok ⟨"\nW".data, false⟩
    ∧ strip_pragma_once "// #pragma once\nW".data = ("// #pragma once\nW".data, false) :=
  ⟨by decide, by decide,
    (c8_amended (fun _ => none) 2 ⟨[], []⟩ "a".data "// #pragma once\nW".data).2 (by decide)⟩

/-! ## C9 — the working-directory guard is inert -/

/-- The resolver computes the same answer whether or not the guard is
constructed, at every fuel, session and source. -/
theorem do_preprocess_eq_unguarded (fs : FS) :
    ∀ fuel s f src, do_preprocess fs fuel s f src = do_preprocess_unguarded fs fuel s f src := by
  intro fuel
  induction fuel with
  | zero => intro s f src; rfl
  | succ n ih =>
    intro s f src
    have h : do_preprocess fs n = do_preprocess_unguarded fs n :=
      funext fun a => funext fun b => funext fun c => ih a b c
    rw [do_preprocess, do_preprocess_unguarded, h]

/-- C9: the working-directory tracking construct pushes the file's
parent directory onto a stack that is a fresh instance per construction
(construction yields a one-element stack, destruction empties it again),
and the result of the recursive resolver — session, trace and output —
is unchanged by its presence. -/
theorem c9_wdfg_inert :
    (∀ file, wdfg_construct file = ⟨[parent_path file]⟩
      ∧ wdfg_destruct (wdfg_construct file) = ⟨[]⟩)
    ∧ ∀ fs fuel s f src, do_preprocess fs fuel s f src = do_preprocess_unguarded fs fuel s f src :=
  ⟨fun _ => ⟨rfl, rfl⟩, fun fs => do_preprocess_eq_unguarded fs⟩

/-! ## C7 — comment-enclosed directives are never expanded -/

theorem strip_block_comments_cons_ne (c : Char) (l : List Char) (h : c ≠ '/') :
    strip_block_comments (c :: l) = c :: strip_block_comments l := by
  cases l with
  | nil => simp [strip_block_comments]
  | cons d tl => simp [strip_block_comments, h]

theorem strip_block_comments_append_no_slash :
    ∀ (p q : List Char), (∀ c ∈ p, c ≠ '/') →
      strip_block_comments (p ++ q) = p ++ strip_block_comments q
  | [], _, _ => rfl
  | c :: p, q, h => by
    rw [List.cons_append, strip_block_comments_cons_ne c _ (h c (by simp)),
      strip_block_comments_append_no_slash p q (fun d hd => h d (by simp [hd])),
      List.cons_append]

theorem blockCommentBody_cons_ne (c : Char) (buf l : List Char) (h : c ≠ '*') :
    blockCommentBody buf (c :: l) = blockCommentBody (c :: buf) l := by
  cases l with
  | nil => simp [blockCommentBody]
  | cons d tl => simp [blockCommentBody, h]

theorem blockCommentBody_close :
    ∀ (m buf q : List Char), (∀ c ∈ m, c ≠ '*') →
      blockCommentBody buf (m ++ '*' :: '/' :: q) = strip_block_comments q
  | [], _, _, _ => rfl
  | c :: m, buf, q, h => by
    rw [List.cons_append, blockCommentBody_cons_ne c buf _ (h c (by simp)),
      blockCommentBody_close m (c :: buf) q (fun d hd => h d (by simp [hd]))]

theorem strip_block_comments_open (l : List Char) :
    strip_block_comments ('/' :: '*' :: l) = blockCommentBody ['*', '/'] l := rfl

theorem strip_block_comments_slash_ne (d : Char) (l : List Char) (hd : d ≠ '*') :
    strip_block_comments ('/' :: d :: l) = '/' :: strip_block_comments (d :: l) := by
  simp [strip_block_comments, hd]

theorem strip_line_comments_cons_ne (c : Char) (l : List Char) (h : c ≠ '/') :
    strip_line_comments (c :: l) = c :: strip_line_comments l := by
  cases l with
  | nil => simp [strip_line_comments]
  | cons d tl => simp [strip_line_comments, h]

theorem strip_line_comments_append_no_slash :
    ∀ (p q : List Char), (∀ c ∈ p, c ≠ '/') →
      strip_line_comments (p ++ q) = p ++ strip_line_comments q
  | [], _, _ => rfl
  | c :: p, q, h => by
    rw [List.cons_append, strip_line_comments_cons_ne c _ (h c (by simp)),
      strip_line_comments_append_no_slash p q (fun d hd => h d (by simp [hd])),
      List.cons_append]

theorem strip_line_comments_open (l : List Char) :
    strip_line_comments ('/' :: '/' :: l) = lineCommentBody l := rfl

theorem lineCommentBody_close :
    ∀ (m q : List Char), (∀ c ∈ m, ¬(c = '\n' || c = '\r') = true) →
      lineCommentBody (m ++ '\n' :: q) = '\n' :: strip_line_comments q
  | [], q, _ => by simp [lineCommentBody]
  | c :: m, q, h => by
    rw [List.cons_append, lineCommentBody]
    have hc := h c (by simp)
    rw [if_neg (by simpa using hc)]
    exact lineCommentBody_close m q (fun d hd => h d (by simp [hd]))

/-- The two comment-stripped buffers of the block-comment scenario agree. -/
theorem strip_comments_block_erased (p m q : List Char)
    (hp : ∀ c ∈ p, c ≠ '/') (hm : ∀ c ∈ m, c ≠ '*') :
    strip_comments (p ++ '/' :: '*' :: (m ++ '*' :: '/' :: q)) = strip_comments (p ++ q) := by
  unfold strip_comments
  rw [strip_block_comments_append_no_slash p _ hp, strip_block_comments_open,
    blockCommentBody_close m _ q hm, strip_block_comments_append_no_slash p q hp]

/-- The two comment-stripped buffers of the line-comment scenario agree. -/
theorem strip_comments_line_erased (p m q : List Char)
    (hp : ∀ c ∈ p, c ≠ '/')
    (hm : ∀ c ∈ m, c ≠ '/' ∧ c ≠ '*' ∧ c ≠ '\n' ∧ c ≠ '\r') :
    strip_comments (p ++ '/' :: '/' :: (m ++ '\n' :: q))
      = p ++ '\n' :: strip_comments q := by
  unfold strip_comments
  have hmp : ∀ c ∈ m ++ ['\n'], c ≠ '/' := by
    intro c hc
    rcases List.mem_append.1 hc with h | h
    · exact (hm c h).1
    · simp at h
      subst h
      decide
  have hb : strip_block_comments (p ++ '/' :: '/' :: (m ++ '\n' :: q))
      = p ++ '/' :: '/' :: (m ++ '\n' :: strip_block_comments q) := by
    rw [strip_block_comments_append_no_slash p _ hp]
    have h2 : strip_block_comments ('/' :: '/' :: (m ++ '\n' :: q))
        = '/' :: strip_block_comments ('/' :: (m ++ '\n' :: q)) := by
      exact strip_block_comments_slash_ne '/' _ (by decide)
    rw [h2]
    cases m with
    | nil =>
      rw [List.nil_append, strip_block_comments_slash_ne '\n' _ (by decide),
        strip_block_comments_cons_ne '\n' _ (by decide)]
      rfl
    | cons a m' =>
      have ha : a ≠ '*' := ((hm a (by simp)).2.1)
      rw [List.cons_append, strip_block_comments_slash_ne a _ ha, ← List.cons_append]
      have : strip_block_comments ((a :: m') ++ '\n' :: q)
          = (a :: m') ++ '\n' :: strip_block_comments q := by
        have : strip_block_comments (((a :: m') ++ ['\n']) ++ q)
            = ((a :: m') ++ ['\n']) ++ strip_block_comments q := by
          apply strip_block_comments_append_no_slash
          intro c hc
          rcases List.mem_append.1 hc with h | h
          · exact (hm c h).1
          · simp at h; subst h; decide
        simpa using this
      rw [this]
  rw [hb, strip_line_comments_append_no_slash p _ hp, strip_line_comments_open,
    lineCommentBody_close m _ (fun c hc => by simp [(hm c hc).2.2.1, (hm c hc).2.2.2])]

theorem strip_comments_append_nl (p q : List Char) (hp : ∀ c ∈ p, c ≠ '/') :
    strip_comments (p ++ '\n' :: q) = p ++ '\n' :: strip_comments q := by
  unfold strip_comments
  rw [strip_block_comments_append_no_slash p _ hp,
    strip_block_comments_cons_ne '\n' _ (by decide),
    strip_line_comments_append_no_slash p _ hp,
    strip_line_comments_cons_ne '\n' _ (by decide)]

/-- Two sources with no anchored once-marker and the same comment-stripped
body are expanded identically. -/
theorem do_preprocess_congr_source (fs : FS) (fuel : Nat) (s : Session) (f src1 src2 : List Char)
    (h1 : strip_pragma_once src1 = (src1, false))
    (h2 : strip_pragma_once src2 = (src2, false))
    (hc : strip_comments src1 = strip_comments src2) :
    do_preprocess fs fuel s f src1 = do_preprocess fs fuel s f src2 := by
  have e1 : (strip_pragma_once src1).1 = src1 := by rw [h1]
  have e1' : (strip_pragma_once src1).2 = false := by rw [h1]
  have e2 : (strip_pragma_once src2).1 = src2 := by rw [h2]
  have e2' : (strip_pragma_once src2).2 = false := by rw [h2]
  cases fuel with
  | zero => rfl
  | succ n =>
    by_cases hv : f ∈ s.visiting
    · rw [do_preprocess_hit _ _ _ _ _ hv, do_preprocess_hit _ _ _ _ _ hv, e1', e2']
    · rw [do_preprocess_nohit _ _ _ _ _ hv, do_preprocess_nohit _ _ _ _ _ hv,
        e1, e1', e2, e2', hc]

/-- C7: an include directive enclosed in a `/*...*/` or a `//` comment is
inert — the whole run (state, trace, result) is identical to the run on
the source with the comment deleted, for every file system, so the
enclosed directive is never expanded and never causes any file read.
`p` is the text before the comment (it starts with a non-whitespace,
non-`#`, non-`/` character and contains no `/`), `m` the comment body,
`q` the rest of the file. -/
theorem c7_comment_directives_inert (fs : FS) (fuel : Nat) (s : Session) (f p m q : List Char)
    (c0 : Char) (hp0 : p.head? = some c0) (hws : isWS c0 = false) (hhash : c0 ≠ '#')
    (hp : ∀ c ∈ p, c ≠ '/') :
    ((∀ c ∈ m, c ≠ '*') →
      do_preprocess fs fuel s f (p ++ '/' :: '*' :: (m ++ '*' :: '/' :: q))
        = do_preprocess fs fuel s f (p ++ q))
    ∧ ((∀ c ∈ m, c ≠ '/' ∧ c ≠ '*' ∧ c ≠ '\n' ∧ c ≠ '\r') →
      do_preprocess fs fuel s f (p ++ '/' :: '/' :: (m ++ '\n' :: q))
        = do_preprocess fs fuel s f (p ++ '\n' :: q)) := by
  cases p with
  | nil => simp at hp0
  | cons a p' =>
    obtain rfl : a = c0 := by simpa using hp0
    constructor
    · intro hm
      apply do_preprocess_congr_source
      · exact strip_pragma_once_no_match _ a (by simp) hws hhash
      · exact strip_pragma_once_no_match _ a (by simp) hws hhash
      · exact strip_comments_block_erased (a :: p') m q hp hm
    · intro hm
      apply do_preprocess_congr_source
      · exact strip_pragma_once_no_match _ a (by simp) hws hhash
      · exact strip_pragma_once_no_match _ a (by simp) hws hhash
      · rw [strip_comments_line_erased (a :: p') m q hp hm,
          strip_comments_append_nl (a :: p') q hp]

/-- Witness for C7 at a concrete file: a commented-out `#include "zz"`
leaves the run exactly as if the comment were absent (in particular the
missing file `zz` is never read, although `fs` cannot provide it). -/
theorem c7_witness :
    ("X".data.head? = some 'X') ∧ isWS 'X' = false ∧ 'X' ≠ '#'
    ∧ (do_preprocess (fun _ => none) 2 ⟨[], []⟩ "r".data
        ("X".data ++ '/' :: '*' :: (" #include \"zz\" ".data ++ '*' :: '/' :: "Q".data))
        = do_preprocess (fun _ => none) 2 ⟨[], []⟩ "r".data ("X".data ++ "Q".data))
    ∧ (do_preprocess (fun _ => none) 2 ⟨[], []⟩ "r".data
        ("X".data ++ '/' :: '/' :: (" #include \"zz\" ".data ++ '\n' :: "Q".data))
        = do_preprocess (fun _ => none) 2 ⟨[], []⟩ "r".data ("X".data ++ '\n' :: "Q".data)) :=
  ⟨by decide, by decide, by decide,
    (c7_comment_directives_inert (fun _ => none) 2 ⟨[], []⟩ "r".data "X".data
      " #include \"zz\" ".data "Q".data 'X' (by decide) (by decide) (by decide) (by decide)).1
      (by decide),
    (c7_comment_directives_inert (fun _ => none) 2 ⟨[], []⟩ "r".data "X".data
      " #include \"zz\" ".data "Q".data 'X' (by decide) (by decide) (by decide) (by decide)).2
      (by decide)⟩

/-! ## C10 — scanner payloads always satisfy the resolver's assertion -/

/-- Unconditional one-step unfolding of the directive loop. -/
theorem scanIncludes_succ (fs : FS) (child : Session → List Char → List Char → POut)
    (n : Nat) (s : Session) (buf : List Char) :
    scanIncludes fs child (n + 1) s buf
      = (match findDirective buf with
        | none => (s, [], .ok buf)
        | some (pre, include_path, suf) =>
          match runtime_path_from_include_path include_path with
          | none => (s, [], .error .malformed)
          | some runtime_path =>
            match fs runtime_path with
            | none => (s, [], .error (.missing runtime_path))
            | some included_source =>
              let should_skip := decide (runtime_path ∈ s.should_skip)
              let sess1 := if should_skip then s
                else { s with should_skip := runtime_path :: s.should_skip }
              match child sess1 runtime_path included_source with
              | (sess2, tc, .error e) => (sess2, tc, .error e)
              | (sess2, tc, .ok included_result) =>
                let replacement :=
                  if included_result.has_pragma_once && should_skip then []
                  else included_result.content
                let ev : Event :=
                  { path := runtime_path, first := !should_skip,
                    once := included_result.has_pragma_once,
                    child := included_result.content, repl := replacement,
                    vis := s.visiting }
                match scanIncludes fs child n sess2 suf with
                | (sess3, tr, .error e) => (sess3, ev :: tc ++ tr, .error e)
                | (sess3, tr, .ok rest) =>
                  (sess3, ev :: tc ++ tr, .ok (pre ++ replacement ++ rest))) := rfl

/-- Shape of a successful payload parse: quoted with a nonempty interior
or angle-delimited with a possibly-empty interior. -/
theorem parsePayload_shape (l payload suf : List Char)
    (h : parsePayload l = some (payload, suf)) :
    (∃ w, w ≠ [] ∧ payload = '"' :: (w ++ ['"']))
    ∨ (∃ w, payload = '<' :: (w ++ ['>'])) := by
  cases l with
  | nil => simp [parsePayload] at h
  | cons c rest =>
    by_cases hq : c = '"'
    · subst hq
      rcases hs : scanDelimited '"' rest with _ | ⟨w, suf'⟩
      · simp [parsePayload, hs] at h
      · cases w with
        | nil => simp [parsePayload, hs] at h
        | cons x w' =>
          simp only [parsePayload, hs] at h
          left
          exact ⟨x :: w', by simp, by simp_all⟩
    · by_cases ha : c = '<'
      · subst ha
        rcases hs : scanDelimited '>' rest with _ | ⟨w, suf'⟩
        · simp [parsePayload, hs] at h
        · simp only [parsePayload, hs] at h
          right
          exact ⟨w, by simp_all⟩
      · simp [parsePayload, hq, ha] at h

theorem matchDirectiveAt_shape (l payload suf : List Char)
    (h : matchDirectiveAt l = some (payload, suf)) :
    (∃ w, w ≠ [] ∧ payload = '"' :: (w ++ ['"']))
    ∨ (∃ w, payload = '<' :: (w ++ ['>'])) := by
  unfold matchDirectiveAt at h
  rcases hd : dropPfx "#include".data l with _ | r
  · rw [hd] at h; simp at h
  · rw [hd] at h
    exact parsePayload_shape _ _ _ h

theorem findDirective_shape :
    ∀ (buf pre payload suf : List Char), findDirective buf = some (pre, payload, suf) →
      (∃ w, w ≠ [] ∧ payload = '"' :: (w ++ ['"']))
      ∨ (∃ w, payload = '<' :: (w ++ ['>']))
  | [], _, _, _, h => by simp [findDirective] at h
  | c :: rest, pre, payload, suf, h => by
    rw [findDirective] at h
    rcases hm : matchDirectiveAt (c :: rest) with _ | ⟨pl, sf⟩
    · rw [hm] at h
      rcases hf : findDirective rest with _ | ⟨pre', pl', sf'⟩
      · rw [hf] at h; simp at h
      · rw [hf] at h
        simp only [Option.some.injEq, Prod.mk.injEq] at h
        obtain ⟨-, h2, -⟩ := h
        exact h2 ▸ findDirective_shape rest pre' pl' sf' hf
    · rw [hm] at h
      simp only [Option.some.injEq, Prod.mk.injEq] at h
      obtain ⟨-, h2, -⟩ := h
      exact h2 ▸ matchDirectiveAt_shape _ pl sf hm

/-- The payload length facts derived from the shape. -/
theorem findDirective_payload_len (buf pre payload suf : List Char)
    (h : findDirective buf = some (pre, payload, suf)) :
    2 ≤ payload.length ∧ (payload.head? = some '"' → 3 ≤ payload.length)
    ∧ (runtime_path_from_include_path payload).isSome = true := by
  rcases findDirective_shape buf pre payload suf h with ⟨w, hw, rfl⟩ | ⟨w, rfl⟩
  · refine ⟨by simp, fun _ => ?_, ?_⟩
    · cases w with
      | nil => exact absurd rfl hw
      | cons a w' => simp
    · simp [runtime_path_from_include_path]
  · refine ⟨by simp, fun hq => ?_, ?_⟩
    · simp at hq
    · simp [runtime_path_from_include_path]

/-- The directive loop never reports the malformed-payload fault, as
long as the child expander never does. -/
theorem scanIncludes_no_malformed (fs : FS)
    (child : Session → List Char → List Char → POut)
    (hchild : ∀ s f src, (child s f src).2.2 ≠ Except.error PErr.malformed) :
    ∀ n s buf, (scanIncludes fs child n s buf).2.2 ≠ Except.error PErr.malformed := by
  intro n
  induction n with
  | zero => intro s buf h; simp [scanIncludes] at h
  | succ n ih =>
    intro s buf
    rw [scanIncludes_succ]
    rcases hfd : findDirective buf with _ | ⟨pre, ipath, suf⟩
    · simp
    · have hrp := (findDirective_payload_len buf pre ipath suf hfd).2.2
      rcases hrpe : runtime_path_from_include_path ipath with _ | rp
      · rw [hrpe] at hrp; simp at hrp
      · simp only [hrpe]
        rcases hfs : fs rp with _ | inc
        · simp
        · simp only []
          rcases hch : child (if decide (rp ∈ s.should_skip) = true then s
              else { s with should_skip := rp :: s.should_skip }) rp inc with ⟨s2, tc, r2⟩
          have hch' := hchild (if decide (rp ∈ s.should_skip) = true then s
              else { s with should_skip := rp :: s.should_skip }) rp inc
          rw [hch] at hch'
          cases r2 with
          | error e =>
            simp only [hch]
            simp only at hch'
            intro hcon
            simp at hcon
            exact hch' (by rw [hcon])
          | ok res =>
            simp only [hch]
            rcases hsc : scanIncludes fs child n s2 suf with ⟨s3, tr, r3⟩
            have ih' := ih s2 suf
            rw [hsc] at ih'
            cases r3 with
            | error e =>
              simp only []
              intro hcon
              simp at hcon
              exact ih' (by rw [hcon])
            | ok rest => simp

/-! ## C3 — visiting bookkeeping across exits -/

theorem scanIncludes_preserves (fs : FS)
    (child : Session → List Char → List Char → POut)
    (hchild : ∀ s f src, SessPreserved s (child s f src)) :
    ∀ n s buf, SessPreserved s (scanIncludes fs child n s buf) := by
  intro n
  induction n with
  | zero =>
    intro s buf
    exact ⟨fun r h => by simp [scanIncludes] at h,
      fun e _ => List.Subset.refl _,
      fun ev h => by simp [scanIncludes] at h⟩
  | succ n ih =>
    intro s buf
    rw [scanIncludes_succ]
    rcases hfd : findDirective buf with _ | ⟨pre, ipath, suf⟩
    · simp only [hfd]
      exact ⟨fun r _ => rfl, fun e h => by simp at h, fun ev h => by simp at h⟩
    · simp only [hfd]
      rcases hrp : runtime_path_from_include_path ipath with _ | rp
      · exact ⟨fun r h => by simp at h, fun e _ => List.Subset.refl _, fun ev h => by simp at h⟩
      · simp only []
        rcases hfs : fs rp with _ | inc
        · exact ⟨fun r h => by simp at h, fun e _ => List.Subset.refl _, fun ev h => by simp at h⟩
        · simp only []
          set s1 := if decide (rp ∈ s.should_skip) = true then s
            else { visiting := s.visiting, should_skip := rp :: s.should_skip } with hs1
          have hs1v : s1.visiting = s.visiting := by
            rw [hs1]
            by_cases hm : rp ∈ s.should_skip <;> simp [hm]
          rcases hch : child s1 rp inc with ⟨s2, tc, r2⟩
          have H2 := hchild s1 rp inc
          rw [hch] at H2
          cases r2 with
          | error e =>
            refine ⟨fun r h => by simp at h, fun e' h => ?_, fun ev h => ?_⟩
            · exact hs1v ▸ H2.2.1 e rfl
            · exact hs1v ▸ H2.2.2 ev h
          | ok res =>
            have hv2 : s2.visiting = s.visiting := by
              rw [H2.1 res rfl, hs1v]
            rcases hsc : scanIncludes fs child n s2 suf with ⟨s3, tr, r3⟩
            have H3 := ih s2 suf
            rw [hsc] at H3
            simp only [hsc]
            have hevtc : ∀ ev ∈ tc, s.visiting ⊆ ev.vis := fun ev h => hs1v ▸ H2.2.2 ev h
            have hevtr : ∀ ev ∈ tr, s.visiting ⊆ ev.vis := fun ev h => hv2 ▸ H3.2.2 ev h
            cases r3 with
            | error e =>
              refine ⟨fun r h => by simp at h,
                fun e' _ => hv2 ▸ H3.2.1 e rfl, fun ev h => ?_⟩
              rcases List.mem_cons.1 h with rfl | h'
              · exact List.Subset.refl _
              · rcases List.mem_append.1 h' with h'' | h''
                · exact hevtc ev h''
                · exact hevtr ev h''
            | ok rest =>
              refine ⟨fun r _ => by rw [H3.1 rest rfl, hv2],
                fun e h => by simp at h, fun ev h => ?_⟩
              rcases List.mem_cons.1 h with rfl | h'
              · exact List.Subset.refl _
              · rcases List.mem_append.1 h' with h'' | h''
                · exact hevtc ev h''
                · exact hevtr ev h''

theorem do_preprocess_preserves (fs : FS) :
    ∀ fuel s f src,
      SessPreserved s (do_preprocess fs fuel s f src)
      ∧ (f ∉ s.visiting →
          ∀ ev ∈ (do_preprocess fs fuel s f src).2.1, f ∈ ev.vis) := by
  intro fuel
  induction fuel with
  | zero =>
    intro s f src
    exact ⟨⟨fun r h => by simp [do_preprocess] at h,
      fun e _ => List.Subset.refl _,
      fun ev h => by simp [do_preprocess] at h⟩,
      fun _ ev h => by simp [do_preprocess] at h⟩
  | succ n ih =>
    intro s f src
    by_cases hv : f ∈ s.visiting
    · rw [do_preprocess_hit fs n s f src hv]
      by_cases hb : (strip_pragma_once src).2 = true
      · rw [if_pos hb]
        exact ⟨⟨fun r _ => rfl, fun e h => by simp at h, fun ev h => by simp at h⟩,
          fun hnv => absurd hv hnv⟩
      · rw [if_neg hb]
        exact ⟨⟨fun r h => by simp at h, fun e _ => List.Subset.refl _,
          fun ev h => by simp at h⟩,
          fun hnv => absurd hv hnv⟩
    · rw [do_preprocess_nohit fs n s f src hv]
      have hsp := scanIncludes_preserves fs (do_preprocess fs n)
        (fun a b c => (ih a b c).1) ((strip_comments (strip_pragma_once src).1).length + 1)
        ⟨f :: s.visiting, s.should_skip⟩ (strip_comments (strip_pragma_once src).1)
      rcases hsc : scanIncludes fs (do_preprocess fs n)
          ((strip_comments (strip_pragma_once src).1).length + 1)
          ⟨f :: s.visiting, s.should_skip⟩
          (strip_comments (strip_pragma_once src).1) with ⟨s2, t2, r2⟩
      rw [hsc] at hsp
      have hevf : ∀ ev ∈ t2, f ∈ ev.vis := fun ev h =>
        (hsp.2.2 ev h) (List.mem_cons_self f s.visiting)
      have hevs : ∀ ev ∈ t2, s.visiting ⊆ ev.vis := fun ev h =>
        fun x hx => (hsp.2.2 ev h) (List.mem_cons_of_mem f hx)
      cases r2 with
      | error e =>
        exact ⟨⟨fun r h => by simp at h,
          fun e' _ => fun x hx => hsp.2.1 e rfl (List.mem_cons_of_mem f hx),
          hevs⟩,
          fun _ => hevf⟩
      | ok buf =>
        have hv2 : s2.visiting = f :: s.visiting := hsp.1 buf rfl
        refine ⟨⟨fun r _ => ?_, fun e h => by simp at h, hevs⟩, fun _ => hevf⟩
        show s2.visiting.erase f = s.visiting
        rw [hv2, List.erase_cons_head]

/-- C3 counterexample: a run that aborts with a missing-file error exits
with the root identity still in `visiting` — the manual `erase` after
the directive loop is skipped on the error path (only the inert
working-directory guard is scope-protected, not `visiting`). -/
theorem c3_counterexample :
    c3run.2.2 = Except.error (PErr.missing "b".data)
    ∧ "a".data ∈ c3run.1.visiting := by decide

/-- C3 amended: a file's identity is in `visiting` while its own
expansion is in progress (every directive event inside the invocation
snapshots a `visiting` containing it), and it is removed on every
successful exit, restoring `visiting` exactly; on an error exit the
identity is not removed — `visiting` only grows — which is harmless
because every error aborts the whole run and the session is discarded. -/
theorem c3_amended (fs : FS) (fuel : Nat) (s : Session) (f src : List Char) :
    (∀ s' t r, do_preprocess fs fuel s f src = (s', t, Except.ok r) →
        s'.visiting = s.visiting)
    ∧ (∀ s' t e, do_preprocess fs fuel s f src = (s', t, Except.error e) →
        s.visiting ⊆ s'.visiting)
    ∧ (f ∉ s.visiting →
        ∀ ev ∈ (do_preprocess fs fuel s f src).2.1, f ∈ ev.vis) := by
  obtain ⟨⟨h1, h2, _⟩, h4⟩ := do_preprocess_preserves fs fuel s f src
  refine ⟨?_, ?_, h4⟩
  · intro s' t r h
    have := h1 r (by rw [h])
    rwa [h] at this
  · intro s' t e h
    have := h2 e (by rw [h])
    rwa [h] at this

/-- Witness for C3's amended theorem: the error path of the concrete
missing-file run and the membership of the root in every event snapshot
of a successful run. -/
theorem c3_witness :
    ((⟨[], []⟩ : Session).visiting ⊆ (⟨["a".data], []⟩ : Session).visiting)
    ∧ ("a".data ∉ (⟨[], []⟩ : Session).visiting) :=
  ⟨(c3_amended (fun _ => none) 3 ⟨[], []⟩ "a".data "#include \"b\"".data).2.1
      ⟨["a".data], []⟩ [] (PErr.missing "b".data) (by decide),
   by decide⟩

theorem do_preprocess_no_malformed (fs : FS) :
    ∀ fuel s f src, (do_preprocess fs fuel s f src).2.2 ≠ Except.error PErr.malformed := by
  intro fuel
  induction fuel with
  | zero => intro s f src h; simp [do_preprocess] at h
  | succ n ih =>
    intro s f src
    by_cases hv : f ∈ s.visiting
    · rw [do_preprocess_hit fs n s f src hv]
      by_cases hb : (strip_pragma_once src).2 = true
      · rw [if_pos hb]; simp
      · rw [if_neg hb]; simp
    · rw [do_preprocess_nohit fs n s f src hv]
      have hs := scanIncludes_no_malformed fs (do_preprocess fs n)
        (fun a b c => ih a b c) ((strip_comments (strip_pragma_once src).1).length + 1)
        ⟨f :: s.visiting, s.should_skip⟩ (strip_comments (strip_pragma_once src).1)
      rcases hsc : scanIncludes fs (do_preprocess fs n)
          ((strip_comments (strip_pragma_once src).1).length + 1)
          ⟨f :: s.visiting, s.should_skip⟩
          (strip_comments (strip_pragma_once src).1) with ⟨s2, t2, r2⟩
      rw [hsc] at hs
      cases r2 with
      | error e =>
        intro hcon
        simp at hcon
        exact hs (by rw [hcon])
      | ok buf => simp

/-- C10: every payload the directive scanner produces carries both of
its delimiters — the quoted alternative only matches with a nonempty
interior (length at least 3) and the angle alternative admits the empty
`<>` (length exactly 2) — so the resolver's `size >= 2` assertion holds
for every scanner payload, and no run ever reports the malformed-payload
fault. -/
theorem c10_assert_unreachable :
    (∀ buf pre payload suf, findDirective buf = some (pre, payload, suf) →
      2 ≤ payload.length ∧ (payload.head? = some '"' → 3 ≤ payload.length)
      ∧ (runtime_path_from_include_path payload).isSome = true)
    ∧ ∀ fs fuel s f src,
        (do_preprocess fs fuel s f src).2.2 ≠ Except.error PErr.malformed :=
  ⟨fun buf pre payload suf h => findDirective_payload_len buf pre payload suf h,
   fun fs fuel s f src => do_preprocess_no_malformed fs fuel s f src⟩

/-- Witness for C10 at a concrete scanned buffer and run. -/
theorem c10_witness :
    (2 ≤ "\"b\"".data.length ∧ ("\"b\"".data.head? = some '"' → 3 ≤ "\"b\"".data.length)
      ∧ (runtime_path_from_include_path "\"b\"".data).isSome = true)
    ∧ (do_preprocess (fun _ => none) 1 ⟨[], []⟩ "a".data "x".data).2.2
        ≠ Except.error PErr.malformed :=
  ⟨c10_assert_unreachable.1 "#include \"b\"".data [] "\"b\"".data [] (by decide),
   c10_assert_unreachable.2 (fun _ => none) 1 ⟨[], []⟩ "a".data "x".data⟩

/-! ## C1 — dedup of once-marked files across the run -/

theorem FirstFlagsOk_congr :
    ∀ (t : List Event) (seen seen' : List (List Char)),
      (∀ p, p ∈ seen ↔ p ∈ seen') → FirstFlagsOk seen t → FirstFlagsOk seen' t
  | [], _, _, _, _ => trivial
  | ev :: t, seen, seen', h, hf => by
    obtain ⟨h1, h2⟩ := hf
    exact ⟨h1.trans (not_congr (h ev.path)),
      FirstFlagsOk_congr t _ _ (fun p => by simp [h p]) h2⟩

theorem FirstFlagsOk_append :
    ∀ (t1 t2 : List Event) (seen : List (List Char)),
      FirstFlagsOk seen t1 → FirstFlagsOk (pathsOf t1 ++ seen) t2 →
      FirstFlagsOk seen (t1 ++ t2)
  | [], t2, seen, _, h2 => h2
  | ev :: t1, t2, seen, h1, h2 => by
    obtain ⟨ha, hb⟩ := h1
    refine ⟨ha, FirstFlagsOk_append t1 t2 (ev.path :: seen) hb ?_⟩
    refine FirstFlagsOk_congr t2 _ _ (fun p => ?_) h2
    simp only [pathsOf, List.map_cons, List.cons_append, List.mem_cons, List.mem_append]
    tauto

theorem FirstFlagsOk_extract :
    ∀ (t1 : List Event) (seen : List (List Char)) (ev : Event) (t2 : List Event),
      FirstFlagsOk seen (t1 ++ ev :: t2) →
      (ev.first = true ↔ (ev.path ∉ seen ∧ ev.path ∉ pathsOf t1))
  | [], seen, ev, t2, h => by
    obtain ⟨h1, -⟩ := h
    simpa [pathsOf] using h1
  | e :: t1, seen, ev, t2, h => by
    obtain ⟨-, h2⟩ := h
    have hrec := FirstFlagsOk_extract t1 (e.path :: seen) ev t2 h2
    rw [hrec]
    simp only [pathsOf, List.map_cons, List.mem_cons]
    tauto

theorem scanIncludes_skip_inv (fs : FS)
    (child : Session → List Char → List Char → POut)
    (hchild : ∀ s f src s' t r, child s f src = (s', t, Except.ok r) →
      (∀ p, p ∈ s'.should_skip ↔ p ∈ s.should_skip ∨ p ∈ pathsOf t)
      ∧ FirstFlagsOk s.should_skip t) :
    ∀ n s buf s' t v, scanIncludes fs child n s buf = (s', t, Except.ok v) →
      (∀ p, p ∈ s'.should_skip ↔ p ∈ s.should_skip ∨ p ∈ pathsOf t)
      ∧ FirstFlagsOk s.should_skip t := by
  intro n
  induction n with
  | zero =>
    intro s buf s' t v h
    simp [scanIncludes] at h
  | succ n ih =>
    intro s buf s' t v h
    rw [scanIncludes_succ] at h
    rcases hfd : findDirective buf with _ | ⟨pre, ipath, suf⟩
    · simp only [hfd, Prod.mk.injEq, Except.ok.injEq] at h
      obtain ⟨rfl, rfl, -⟩ := h
      exact ⟨fun p => by simp [pathsOf], trivial⟩
    · simp only [hfd] at h
      rcases hrp : runtime_path_from_include_path ipath with _ | rp
      · simp only [hrp] at h
        simp at h
      · simp only [hrp] at h
        rcases hfs : fs rp with _ | inc
        · simp only [hfs] at h
          simp at h
        · simp only [hfs] at h
          rcases hch : child (if decide (rp ∈ s.should_skip) = true then s
              else { visiting := s.visiting, should_skip := rp :: s.should_skip }) rp inc
            with ⟨s2, tc, r2⟩
          rw [hch] at h
          cases r2 with
          | error e => simp at h
          | ok res =>
            dsimp only at h
            rcases hsc : scanIncludes fs child n s2 suf with ⟨s3, tr, r3⟩
            rw [hsc] at h
            cases r3 with
            | error e => simp at h
            | ok rest =>
              simp only [Prod.mk.injEq, Except.ok.injEq] at h
              obtain ⟨rfl, rfl, -⟩ := h
              have Hch := hchild _ rp inc s2 tc res hch
              have Hsc := ih s2 suf s3 tr rest hsc
              constructor
              · intro p
                rw [Hsc.1 p, Hch.1 p]
                simp only [pathsOf, List.map_cons, List.map_append, List.mem_cons,
                  List.mem_append]
                by_cases hskip : rp ∈ s.should_skip
                · rw [if_pos (by simp [hskip])]
                  have himp : p = rp → p ∈ s.should_skip := fun hp => hp ▸ hskip
                  tauto
                · rw [if_neg (by simp [hskip])]
                  dsimp only
                  rw [List.mem_cons]
                  tauto
              · refine ⟨?_, ?_⟩
                · simp
                · apply FirstFlagsOk_append
                  · by_cases hskip : rp ∈ s.should_skip
                    · rw [if_pos (by simp [hskip])] at Hch
                      refine FirstFlagsOk_congr tc s.should_skip _ (fun p => ?_) Hch.2
                      exact ⟨fun hp => List.mem_cons_of_mem _ hp,
                        fun hp => by
                          rcases List.mem_cons.1 hp with rfl | hp'
                          exacts [hskip, hp']⟩
                    · rw [if_neg (by simp [hskip])] at Hch
                      exact Hch.2
                  · refine FirstFlagsOk_congr tr s2.should_skip _ (fun p => ?_) Hsc.2
                    rw [Hch.1 p]
                    simp only [List.mem_append, List.mem_cons]
                    by_cases hskip : rp ∈ s.should_skip
                    · rw [if_pos (by simp [hskip])]
                      have himp : p = rp → p ∈ s.should_skip := fun hp => hp ▸ hskip
                      tauto
                    · rw [if_neg (by simp [hskip])]
                      dsimp only
                      rw [List.mem_cons]
                      tauto

theorem do_preprocess_skip_inv (fs : FS) :
    ∀ fuel s f src s' t r, do_preprocess fs fuel s f src = (s', t, Except.ok r) →
      (∀ p, p ∈ s'.should_skip ↔ p ∈ s.should_skip ∨ p ∈ pathsOf t)
      ∧ FirstFlagsOk s.should_skip t := by
  intro fuel
  induction fuel with
  | zero => intro s f src s' t r h; simp [do_preprocess] at h
  | succ n ih =>
    intro s f src s' t r h
    by_cases hv : f ∈ s.visiting
    · rw [do_preprocess_hit fs n s f src hv] at h
      by_cases hb : (strip_pragma_once src).2 = true
      · rw [if_pos hb] at h
        simp only [Prod.mk.injEq, Except.ok.injEq] at h
        obtain ⟨rfl, rfl, -⟩ := h
        exact ⟨fun p => by simp [pathsOf], trivial⟩
      · rw [if_neg hb] at h
        simp at h
    · rw [do_preprocess_nohit fs n s f src hv] at h
      rcases hsc : scanIncludes fs (do_preprocess fs n)
          ((strip_comments (strip_pragma_once src).1).length + 1)
          ⟨f :: s.visiting, s.should_skip⟩
          (strip_comments (strip_pragma_once src).1) with ⟨s2, t2, r2⟩
      rw [hsc] at h
      cases r2 with
      | error e => simp at h
      | ok buf =>
        simp only [Prod.mk.injEq, Except.ok.injEq] at h
        obtain ⟨rfl, rfl, -⟩ := h
        have H := scanIncludes_skip_inv fs (do_preprocess fs n) ih
          ((strip_comments (strip_pragma_once src).1).length + 1)
          ⟨f :: s.visiting, s.should_skip⟩
          (strip_comments (strip_pragma_once src).1) s2 t2 buf hsc
        exact H

theorem do_preprocess_once_shape (fs : FS) (fuel : Nat) (s : Session) (f src : List Char)
    (s' : Session) (t : List Event) (r : Preprocess_Result)
    (h : do_preprocess fs fuel s f src = (s', t, Except.ok r)) :
    r.has_pragma_once = true → r.content = [] ∨ ∃ b, r.content = include_guard_wrap f b := by
  cases fuel with
  | zero => simp [do_preprocess] at h
  | succ n =>
    by_cases hv : f ∈ s.visiting
    · rw [do_preprocess_hit fs n s f src hv] at h
      by_cases hb : (strip_pragma_once src).2 = true
      · rw [if_pos hb] at h
        simp only [Prod.mk.injEq, Except.ok.injEq] at h
        obtain ⟨-, -, rfl⟩ := h
        exact fun _ => Or.inl rfl
      · rw [if_neg hb] at h
        simp at h
    · rw [do_preprocess_nohit fs n s f src hv] at h
      rcases hsc : scanIncludes fs (do_preprocess fs n)
          ((strip_comments (strip_pragma_once src).1).length + 1)
          ⟨f :: s.visiting, s.should_skip⟩
          (strip_comments (strip_pragma_once src).1) with ⟨s2, t2, r2⟩
      rw [hsc] at h
      cases r2 with
      | error e => simp at h
      | ok buf =>
        simp only [Prod.mk.injEq, Except.ok.injEq] at h
        obtain ⟨-, -, rfl⟩ := h
        intro honce
        right
        refine ⟨buf, ?_⟩
        show (if (strip_pragma_once src).2 = true then include_guard_wrap f buf else buf)
          = include_guard_wrap f buf
        rw [if_pos honce]

theorem scanIncludes_evshape (fs : FS)
    (child : Session → List Char → List Char → POut)
    (hchild : ∀ s f src s' t r, child s f src = (s', t, Except.ok r) →
      (r.has_pragma_once = true → r.content = [] ∨ ∃ b, r.content = include_guard_wrap f b)
      ∧ ∀ ev ∈ t, EvShape ev) :
    ∀ n s buf s' t v, scanIncludes fs child n s buf = (s', t, Except.ok v) →
      ∀ ev ∈ t, EvShape ev := by
  intro n
  induction n with
  | zero => intro s buf s' t v h; simp [scanIncludes] at h
  | succ n ih =>
    intro s buf s' t v h
    rw [scanIncludes_succ] at h
    rcases hfd : findDirective buf with _ | ⟨pre, ipath, suf⟩
    · simp only [hfd, Prod.mk.injEq] at h
      obtain ⟨-, rfl, -⟩ := h
      intro ev hev
      simp at hev
    · simp only [hfd] at h
      rcases hrp : runtime_path_from_include_path ipath with _ | rp
      · simp only [hrp] at h
        simp at h
      · simp only [hrp] at h
        rcases hfs : fs rp with _ | inc
        · simp only [hfs] at h
          simp at h
        · simp only [hfs] at h
          rcases hch : child (if decide (rp ∈ s.should_skip) = true then s
              else { visiting := s.visiting, should_skip := rp :: s.should_skip }) rp inc
            with ⟨s2, tc, r2⟩
          rw [hch] at h
          cases r2 with
          | error e => simp at h
          | ok res =>
            dsimp only at h
            rcases hsc : scanIncludes fs child n s2 suf with ⟨s3, tr, r3⟩
            rw [hsc] at h
            cases r3 with
            | error e => simp at h
            | ok rest =>
              simp only [Prod.mk.injEq, Except.ok.injEq] at h
              obtain ⟨-, rfl, -⟩ := h
              have Hch := hchild _ rp inc s2 tc res hch
              intro ev hev
              rcases List.mem_cons.1 hev with rfl | hev'
              · refine ⟨fun honce => ⟨?_, ?_⟩, fun hnonce => ?_⟩
                · simp only [] at honce
                  by_cases hskip : rp ∈ s.should_skip
                  · simp [hskip, honce]
                  · simp [hskip, honce]
                · exact Hch.1 honce
                · simp at hnonce
                  simp [hnonce]
              · rcases List.mem_append.1 hev' with h1 | h1
                · exact Hch.2 ev h1
                · exact ih s2 suf s3 tr rest hsc ev h1

theorem do_preprocess_evshape (fs : FS) :
    ∀ fuel s f src s' t r, do_preprocess fs fuel s f src = (s', t, Except.ok r) →
      ∀ ev ∈ t, EvShape ev := by
  intro fuel
  induction fuel with
  | zero => intro s f src s' t r h; simp [do_preprocess] at h
  | succ n ih =>
    intro s f src s' t r h
    by_cases hv : f ∈ s.visiting
    · rw [do_preprocess_hit fs n s f src hv] at h
      by_cases hb : (strip_pragma_once src).2 = true
      · rw [if_pos hb] at h
        simp only [Prod.mk.injEq] at h
        obtain ⟨-, rfl, -⟩ := h
        intro ev hev
        simp at hev
      · rw [if_neg hb] at h
        simp at h
    · rw [do_preprocess_nohit fs n s f src hv] at h
      rcases hsc : scanIncludes fs (do_preprocess fs n)
          ((strip_comments (strip_pragma_once src).1).length + 1)
          ⟨f :: s.visiting, s.should_skip⟩
          (strip_comments (strip_pragma_once src).1) with ⟨s2, t2, r2⟩
      rw [hsc] at h
      cases r2 with
      | error e => simp at h
      | ok buf =>
        simp only [Prod.mk.injEq] at h
        obtain ⟨-, rfl, -⟩ := h
        exact scanIncludes_evshape fs (do_preprocess fs n)
          (fun a b c a' t' r' hh =>
            ⟨do_preprocess_once_shape fs n a b c a' t' r' hh, ih a b c a' t' r' hh⟩)
          _ _ _ _ _ _ hsc

/-- C1 counterexample: the once-marked root `b` includes itself twice.
`b` is requested twice in the run (both events carry `once = true`), the
first request is a first-time request, yet both occurrences expand to
the empty string — no occurrence expands to the guarded content, which
is produced only as the value of the root invocation itself (nonempty,
`has_pragma_once = true`). -/
theorem c1_counterexample :
    c1run.2.1.map (fun ev => (ev.first, ev.once, ev.repl))
      = [(true, true, []), (false, true, [])]
    ∧ c1run.2.2.toOption.map (fun r => (r.has_pragma_once, r.content.isEmpty))
      = some (true, false) := by decide

/-- C1 amended: in a successful run started from a session with an empty
`included_before`/`should_skip` set, for every directive event whose
child declared once-semantics: the first occurrence of that identity in
the whole run (no earlier event has the same identity) expands to the
child expansion's content — which is the file's full guarded content
except when that first occurrence re-enters a file whose own expansion
is still in progress (possible only for the run's root), in which case
it too is empty — and every later occurrence expands to the empty
string. -/
theorem c1_amended (fs : FS) (fuel : Nat) (vis : List (List Char)) (f src : List Char)
    (s' : Session) (t t1 t2 : List Event) (ev : Event) (r : Preprocess_Result)
    (hrun : do_preprocess fs fuel ⟨vis, []⟩ f src = (s', t, Except.ok r))
    (hsplit : t = t1 ++ ev :: t2) (honce : ev.once = true) :
    (ev.path ∉ pathsOf t1 →
      ev.repl = ev.child
      ∧ (ev.child = [] ∨ ∃ b, ev.child = include_guard_wrap ev.path b))
    ∧ (ev.path ∈ pathsOf t1 → ev.repl = []) := by
  have hflags := (do_preprocess_skip_inv fs fuel ⟨vis, []⟩ f src s' t r hrun).2
  rw [hsplit] at hflags
  have hfirst := FirstFlagsOk_extract t1 _ ev t2 hflags
  have hshape := do_preprocess_evshape fs fuel ⟨vis, []⟩ f src s' t r hrun ev
    (by rw [hsplit]; exact List.mem_append_right _ (List.mem_cons_self _ _))
  constructor
  · intro hnot
    have hf : ev.first = true := hfirst.2 ⟨by simp, hnot⟩
    obtain ⟨hrepl, hchildshape⟩ := hshape.1 honce
    refine ⟨?_, hchildshape⟩
    rw [hrepl, if_pos hf]
  · intro hmem
    have hf : ev.first = false := by
      cases hcase : ev.first with
      | true => exact absurd (hfirst.1 hcase).2 (not_not_intro hmem)
      | false => rfl
    obtain ⟨hrepl, -⟩ := hshape.1 honce
    rw [hrepl, hf]
    simp

/-- Witness for C1's amended theorem on the concrete self-including
once-marked root: the first (and cyclic) occurrence expands to the
child content, which is empty there. -/
theorem c1_witness :
    (Event.mk "b".data true true [] [] ["b".data]).repl
        = (Event.mk "b".data true true [] [] ["b".data]).child
    ∧ ((Event.mk "b".data true true [] [] ["b".data]).child = []
        ∨ ∃ b, (Event.mk "b".data true true [] [] ["b".data]).child
            = include_guard_wrap (Event.mk "b".data true true [] [] ["b".data]).path b) :=
  (c1_amended c1fs 3 [] "b".data "#pragma once\n#include \"b\"\n#include \"b\"\n".data
      ⟨[], ["b".data]⟩
      [Event.mk "b".data true true [] [] ["b".data],
        Event.mk "b".data false true [] [] ["b".data]]
      [] [Event.mk "b".data false true [] [] ["b".data]]
      (Event.mk "b".data true true [] [] ["b".data])
      ⟨include_guard_wrap "b".data "\n\n\n".data, true⟩
      (by decide) (by decide) (by decide)).1 (by decide)
